import Mathlib

/-!
Shallow embedding of the latency-statistics and comparison-reporting code of
the ImmuDB-Tests benchmarking harness (source file `src/unnamed/part_000`).

Modelling conventions:
* Go `time.Duration` (an `int64`) is modelled as `Int`.  The int64
  wrap-around of the total accumulation is modelled explicitly by `wrap64`
  in `calculateLatencyStats64`, and overflow-sensitive properties are
  settled against that definition; `calculateLatencyStats` idealises the
  same accumulation over unbounded `Int` for the properties that do not
  depend on overflow behaviour.
* Go `float64` values in the percentile and speedup computations are modelled
  as exact rationals (`ℚ`); Go's `int(x)` conversion truncates toward zero,
  modelled by `truncQ`.
* Go integer division on `time.Duration` truncates toward zero, modelled by
  `Int.tdiv`.
* `sort.Slice(sorted, less-than comparator)` sorts the slice ascending; at the
  level of the value sequence its output is the unique `≤`-sorted permutation
  of the input, modelled by `List.insertionSort (· ≤ ·)`.
-/

/-- Go `int(x)` conversion of a (here rational-modelled) `float64` to an
integer: truncation toward zero. -/
def truncQ (q : ℚ) : Int :=
  if 0 ≤ q then ⌊q⌋ else -⌊-q⌋

/-- The index computation of `percentile` (source lines 156-159):
`index := int(float64(len(sorted)) * p)`, then clamped to `len(sorted)-1`
whenever `index >= len(sorted)`. -/
def percentileIndex (n : Nat) (p : ℚ) : Int :=
  let index := truncQ ((n : ℚ) * p)
  if (n : Int) ≤ index then (n : Int) - 1 else index

/-- Embedding of `percentile` (source lines 152-161): returns 0 on an empty
slice, otherwise the element at the clamped index.  The in-range slice access
`sorted[index]` is modelled by `getD`; the theorems below establish that the
index is in bounds for the relevant inputs, so the default is never used. -/
def percentile (sorted : List Int) (p : ℚ) : Int :=
  if sorted.length = 0 then 0
  else sorted.getD (percentileIndex sorted.length p).toNat 0

/-- Embedding of the Go struct `LatencyStats` (source lines 85-96).
Field order and names follow the source. -/
structure LatencyStats where
  Count : Nat
  Min : Int
  Max : Int
  Mean : Int
  P50 : Int
  P95 : Int
  P99 : Int
  P999 : Int
  Total : Int
  Durations : List Int
deriving Repr, DecidableEq

/-- The zero value `LatencyStats{}` returned for an empty sample set. -/
def LatencyStats.zero : LatencyStats :=
  { Count := 0, Min := 0, Max := 0, Mean := 0, P50 := 0, P95 := 0, P99 := 0,
    P999 := 0, Total := 0, Durations := [] }

/-- One step of the running-minimum update in the statistics loop
(source lines 121-123): `if d < stats.Min { stats.Min = d }`. -/
def updateMin (m d : Int) : Int := if d < m then d else m

/-- One step of the running-maximum update in the statistics loop
(source lines 124-126): `if d > stats.Max { stats.Max = d }`. -/
def updateMax (m d : Int) : Int := if m < d then d else m

/-- The ascending sort of the copied slice (source lines 112-116).
`sort.Slice` with the `<` comparator produces, at value level, the unique
`≤`-sorted permutation of the input. -/
def sortDur (l : List Int) : List Int := List.insertionSort (· ≤ ·) l

/-- Embedding of `calculateLatencyStats` (source lines 99-149).
The single statistics loop (lines 119-127) updates three independent
accumulators (total, min, max); it is modelled as three folds over the same
sorted list.  `Min`/`Max` start from `durations[0]` (lines 106-107), the
percentile constants 0.50/0.95/0.99/0.999 are the exact rationals, and
`Mean` is truncating division of `Total` by the sample count (line 130).
This version idealises the `time.Duration` (int64) arithmetic of the total
accumulation over unbounded `Int`; `calculateLatencyStats64` below makes the
int64 wrap-around of the running total explicit, and the two agree exactly
when the accumulation cannot overflow.  Claims that are sensitive to
overflow are settled against `calculateLatencyStats64`. -/
def calculateLatencyStats (durations : List Int) (enablePercentiles : Bool) :
    LatencyStats :=
  if durations.length = 0 then LatencyStats.zero
  else
    let sorted := sortDur durations
    let minV := sorted.foldl updateMin (durations.headD 0)
    let maxV := sorted.foldl updateMax (durations.headD 0)
    let total := sorted.foldl (· + ·) 0
    { Count := durations.length
      Min := minV
      Max := maxV
      Mean := Int.tdiv total (durations.length : Int)
      P50 :=
        if enablePercentiles = true ∧ 0 < sorted.length then
          percentile sorted (1/2)
        else if 0 < sorted.length then sorted.getD (sorted.length / 2) 0
        else 0
      P95 :=
        if enablePercentiles = true ∧ 0 < sorted.length then
          percentile sorted (95/100)
        else 0
      P99 :=
        if enablePercentiles = true ∧ 0 < sorted.length then
          percentile sorted (99/100)
        else 0
      P999 :=
        if enablePercentiles = true ∧ 0 < sorted.length then
          percentile sorted (999/1000)
        else 0
      Total := total
      Durations := if enablePercentiles = true then sorted else [] }

/-- Reduction of an integer into the int64 range `[-2^63, 2^63)`, as Go's
two's-complement wrap-around arithmetic produces. -/
def wrap64 (x : Int) : Int := (x + 2^63) % 2^64 - 2^63

/-- Go int64 addition: exact addition followed by wrap-around overflow.
This is the `total += d` step of the statistics loop (source line 120) on
`time.Duration` values. -/
def addWrap64 (a b : Int) : Int := wrap64 (a + b)

/-- Embedding of `calculateLatencyStats` (source lines 99-149) with the
int64 wrap-around semantics of the `time.Duration` total accumulation
(line 120) made explicit: the running total wraps at every addition exactly
as Go's two's-complement int64 addition does.  All other fields involve only
comparisons, sorting and indexing of the input values and coincide with the
idealised `calculateLatencyStats` above; the two definitions agree whenever
every partial sum of the accumulation stays inside int64.  (The mean
division `total / time.Duration(count)` of line 130 cannot itself overflow
for a positive count.) -/
def calculateLatencyStats64 (durations : List Int) (enablePercentiles : Bool) :
    LatencyStats :=
  if durations.length = 0 then LatencyStats.zero
  else
    let sorted := sortDur durations
    let minV := sorted.foldl updateMin (durations.headD 0)
    let maxV := sorted.foldl updateMax (durations.headD 0)
    let total := sorted.foldl addWrap64 0
    { Count := durations.length
      Min := minV
      Max := maxV
      Mean := Int.tdiv total (durations.length : Int)
      P50 :=
        if enablePercentiles = true ∧ 0 < sorted.length then
          percentile sorted (1/2)
        else if 0 < sorted.length then sorted.getD (sorted.length / 2) 0
        else 0
      P95 :=
        if enablePercentiles = true ∧ 0 < sorted.length then
          percentile sorted (95/100)
        else 0
      P99 :=
        if enablePercentiles = true ∧ 0 < sorted.length then
          percentile sorted (99/100)
        else 0
      P999 :=
        if enablePercentiles = true ∧ 0 < sorted.length then
          percentile sorted (999/1000)
        else 0
      Total := total
      Durations := if enablePercentiles = true then sorted else [] }

/-- Embedding of the Go struct `BenchmarkResult` (source lines 623-635).
Durations are `Int`, the insert rate (`float64`) is `ℚ`. -/
structure BenchmarkResult where
  HashStats : LatencyStats
  FromStats : LatencyStats
  ToStats : LatencyStats
  BlockStats : LatencyStats
  CountFrom : Int
  CountTo : Int
  CountAll : Int
  InsertTime : Int
  InsertRate : ℚ
  TotalRecords : Int
deriving Repr, DecidableEq

/-- An all-zero `BenchmarkResult`, used to build concrete instances. -/
def BenchmarkResult.zero : BenchmarkResult :=
  { HashStats := LatencyStats.zero, FromStats := LatencyStats.zero,
    ToStats := LatencyStats.zero, BlockStats := LatencyStats.zero,
    CountFrom := 0, CountTo := 0, CountAll := 0, InsertTime := 0,
    InsertRate := 0, TotalRecords := 0 }

/-- The per-category speedup line of the comparison report (source lines
803-812, repeated verbatim for the FROM/TO/block categories at lines 815-866):
guarded only by `withoutIndexesResult.<cat>Stats.Mean > 0`; when the guard
holds the ratio `float64(withoutMean) / float64(withMean)` is computed and
printed, with no check of the divisor.  `some r` means the division was
performed and a speedup line printed; `none` means the line was skipped.
(Go float division by a zero mean yields `+Inf`; the rational model is only
used to record which divisions the code performs.) -/
def perCategorySpeedup (withoutMean withMean : Int) : Option ℚ :=
  if 0 < withoutMean then some ((withoutMean : ℚ) / (withMean : ℚ)) else none

/-- One guarded accumulation step of the aggregate-speedup summary (source
lines 900-915): the category contributes its ratio and increments the count
only when both means are positive. -/
def aggregateStep (acc : ℚ × Nat) (withoutMean withMean : Int) : ℚ × Nat :=
  if 0 < withoutMean ∧ 0 < withMean then
    (acc.1 + (withoutMean : ℚ) / (withMean : ℚ), acc.2 + 1)
  else acc

/-- The four (withoutIndexes mean, withIndexes mean) pairs inspected by the
summary, in source order: hash, FROM, TO, block (lines 900-915). -/
def categoryMeanPairs (withoutIdx withIdx : BenchmarkResult) :
    List (Int × Int) :=
  [(withoutIdx.HashStats.Mean, withIdx.HashStats.Mean),
   (withoutIdx.FromStats.Mean, withIdx.FromStats.Mean),
   (withoutIdx.ToStats.Mean, withIdx.ToStats.Mean),
   (withoutIdx.BlockStats.Mean, withIdx.BlockStats.Mean)]

/-- Embedding of the aggregate-speedup summary (source lines 897-919): the
four sequential guarded accumulations, then `avgSpeedup /= count` and the
printout only when `count > 0` (`none` models the skipped summary). -/
def comparisonSummary (withoutIdx withIdx : BenchmarkResult) : Option ℚ :=
  let acc := (categoryMeanPairs withoutIdx withIdx).foldl
    (fun acc c => aggregateStep acc c.1 c.2) ((0 : ℚ), (0 : Nat))
  if 0 < acc.2 then some (acc.1 / (acc.2 : ℚ)) else none

/-- The three-way classification of the aggregate speedup
(source lines 921-928). -/
inductive SpeedupClass where
  | significant
  | modest
  | minimal
deriving Repr, DecidableEq

/-- Classification thresholds of the summary (source lines 921-928):
`> 1.5` significant, else `> 1.1` modest, else minimal. -/
def classifySpeedup (s : ℚ) : SpeedupClass :=
  if 3/2 < s then SpeedupClass.significant
  else if 11/10 < s then SpeedupClass.modest
  else SpeedupClass.minimal

/-- The aggregation rule as worded by the specification (§4.4): the arithmetic
mean of the per-category ratios over exactly those categories where both means
are NON-ZERO.  Stated for comparison with `comparisonSummary`, which is the
code's rule. -/
def comparisonSummarySpec (withoutIdx withIdx : BenchmarkResult) : Option ℚ :=
  let ratios := ((categoryMeanPairs withoutIdx withIdx).filter
      fun c => decide (c.1 ≠ 0) && decide (c.2 ≠ 0)).map
    fun c => (c.1 : ℚ) / (c.2 : ℚ)
  if ratios.length = 0 then none else some (ratios.sum / (ratios.length : ℚ))

/-- The same aggregation rule restated with STRICTLY POSITIVE means, which is
what the code's guards actually test; the amended claim equates this with
`comparisonSummary`. -/
def comparisonSummaryPos (withoutIdx withIdx : BenchmarkResult) : Option ℚ :=
  let ratios := ((categoryMeanPairs withoutIdx withIdx).filter
      fun c => decide (0 < c.1) && decide (0 < c.2)).map
    fun c => (c.1 : ℚ) / (c.2 : ℚ)
  if ratios.length = 0 then none else some (ratios.sum / (ratios.length : ℚ))

/-!
Heap-level model of the slice effects of `calculateLatencyStats`, for the
frame claim.  Memory is a list of slices; an address is an index into it.
The source allocates one fresh slice (`make`, line 112), copies the caller's
slice into it (`copy`, line 113) and sorts it in place (`sort.Slice`,
lines 114-116); the caller's slice is never written.
-/

/-- Read the slice at address `a` (out-of-range reads yield the empty slice;
they do not occur in the proofs below). -/
def readSlice (m : List (List Int)) (a : Nat) : List Int := m.getD a []

/-- Overwrite the slice at address `a`. -/
def writeSlice (m : List (List Int)) (a : Nat) (v : List Int) :
    List (List Int) := m.set a v

/-- The result of the heap-level run: the computed statistics value and the
address of the slice stored in the `Durations` field (`none` when the field
is left nil). -/
structure StatsWithRef where
  stats : LatencyStats
  durationsAddr : Option Nat
deriving Repr, DecidableEq

/-- Heap-level embedding of `calculateLatencyStats` (source lines 99-149),
tracking every slice allocation and write the source performs: `make`
allocates a fresh address, `copy` and the in-place sort write only to that
fresh slice, and `stats.Durations = sorted` (line 145) stores the fresh
address when percentiles are enabled.  The scalar statistics delegate to the
pure embedding above. -/
def calculateLatencyStatsHeap (m : List (List Int)) (a : Nat)
    (enablePercentiles : Bool) : StatsWithRef × List (List Int) :=
  let durations := readSlice m a
  if durations.length = 0 then
    (⟨calculateLatencyStats durations enablePercentiles, none⟩, m)
  else
    let m1 := m ++ [List.replicate durations.length 0]
    let sa := m.length
    let m2 := writeSlice m1 sa (readSlice m1 a)
    let m3 := writeSlice m2 sa (sortDur (readSlice m2 sa))
    (⟨calculateLatencyStats durations enablePercentiles,
      if enablePercentiles = true then some sa else none⟩, m3)

/-! ### Helper lemmas about the folds of the statistics loop -/

theorem foldl_updateMin_le_init (s : List Int) (a : Int) :
    s.foldl updateMin a ≤ a := by
  induction s generalizing a with
  | nil => exact le_refl a
  | cons b s ih =>
    refine le_trans (ih (updateMin a b)) ?_
    unfold updateMin
    split <;> omega

theorem foldl_updateMin_le_mem (s : List Int) (a : Int) :
    ∀ x ∈ s, s.foldl updateMin a ≤ x := by
  induction s generalizing a with
  | nil => intro x hx; cases hx
  | cons b s ih =>
    intro x hx
    rcases List.mem_cons.mp hx with h | h
    · subst h
      refine le_trans (foldl_updateMin_le_init s (updateMin a x)) ?_
      unfold updateMin
      split <;> omega
    · exact ih (updateMin a b) x h

theorem foldl_updateMin_mem (s : List Int) (a : Int) :
    s.foldl updateMin a = a ∨ s.foldl updateMin a ∈ s := by
  induction s generalizing a with
  | nil => exact Or.inl rfl
  | cons b s ih =>
    rcases ih (updateMin a b) with h | h
    · rw [List.foldl_cons, h]
      unfold updateMin
      split
      · exact Or.inr (List.mem_cons_self b s)
      · exact Or.inl rfl
    · exact Or.inr (List.mem_cons_of_mem b h)

theorem foldl_updateMin_init_irrel (s : List Int) (a b : Int)
    (ha : a ∈ s) (hb : b ∈ s) :
    s.foldl updateMin a = s.foldl updateMin b := by
  have h1 : s.foldl updateMin a ≤ s.foldl updateMin b := by
    rcases foldl_updateMin_mem s b with h | h
    · rw [h]; exact foldl_updateMin_le_mem s a b hb
    · exact foldl_updateMin_le_mem s a _ h
  have h2 : s.foldl updateMin b ≤ s.foldl updateMin a := by
    rcases foldl_updateMin_mem s a with h | h
    · rw [h]; exact foldl_updateMin_le_mem s b a ha
    · exact foldl_updateMin_le_mem s b _ h
  omega

theorem foldl_updateMax_init_le (s : List Int) (a : Int) :
    a ≤ s.foldl updateMax a := by
  induction s generalizing a with
  | nil => exact le_refl a
  | cons b s ih =>
    refine le_trans ?_ (ih (updateMax a b))
    unfold updateMax
    split <;> omega

theorem foldl_updateMax_mem_le (s : List Int) (a : Int) :
    ∀ x ∈ s, x ≤ s.foldl updateMax a := by
  induction s generalizing a with
  | nil => intro x hx; cases hx
  | cons b s ih =>
    intro x hx
    rcases List.mem_cons.mp hx with h | h
    · subst h
      refine le_trans ?_ (foldl_updateMax_init_le s (updateMax a x))
      unfold updateMax
      split <;> omega
    · exact ih (updateMax a b) x h

theorem foldl_updateMax_mem (s : List Int) (a : Int) :
    s.foldl updateMax a = a ∨ s.foldl updateMax a ∈ s := by
  induction s generalizing a with
  | nil => exact Or.inl rfl
  | cons b s ih =>
    rcases ih (updateMax a b) with h | h
    · rw [List.foldl_cons, h]
      unfold updateMax
      split
      · exact Or.inr (List.mem_cons_self b s)
      · exact Or.inl rfl
    · exact Or.inr (List.mem_cons_of_mem b h)

theorem foldl_updateMax_init_irrel (s : List Int) (a b : Int)
    (ha : a ∈ s) (hb : b ∈ s) :
    s.foldl updateMax a = s.foldl updateMax b := by
  have h1 : s.foldl updateMax a ≤ s.foldl updateMax b := by
    rcases foldl_updateMax_mem s a with h | h
    · rw [h]; exact foldl_updateMax_mem_le s b a ha
    · exact foldl_updateMax_mem_le s b _ h
  have h2 : s.foldl updateMax b ≤ s.foldl updateMax a := by
    rcases foldl_updateMax_mem s b with h | h
    · rw [h]; exact foldl_updateMax_mem_le s a b hb
    · exact foldl_updateMax_mem_le s a _ h
  omega

theorem foldl_add_eq_sum (s : List Int) (a : Int) :
    s.foldl (· + ·) a = a + s.sum := by
  induction s generalizing a with
  | nil => simp
  | cons b s ih =>
    rw [List.foldl_cons, ih (a + b), List.sum_cons]
    ring

theorem length_mul_le_sum (s : List Int) (m : Int)
    (h : ∀ x ∈ s, m ≤ x) : (s.length : Int) * m ≤ s.sum := by
  induction s with
  | nil => simp
  | cons b s ih =>
    have hb : m ≤ b := h b (List.mem_cons_self b s)
    have hs : (s.length : Int) * m ≤ s.sum :=
      ih fun x hx => h x (List.mem_cons_of_mem b hx)
    rw [List.sum_cons, List.length_cons]
    push_cast
    nlinarith

theorem sum_le_length_mul (s : List Int) (M : Int)
    (h : ∀ x ∈ s, x ≤ M) : s.sum ≤ (s.length : Int) * M := by
  induction s with
  | nil => simp
  | cons b s ih =>
    have hb : b ≤ M := h b (List.mem_cons_self b s)
    have hs : s.sum ≤ (s.length : Int) * M :=
      ih fun x hx => h x (List.mem_cons_of_mem b hx)
    rw [List.sum_cons, List.length_cons]
    push_cast
    nlinarith

/-! ### Helper lemmas about truncating division -/

theorem le_tdiv_of_mul_le (t n m : Int) (hn : 0 < n) (h : n * m ≤ t) :
    m ≤ Int.tdiv t n := by
  rcases le_or_lt 0 t with ht | ht
  · rw [Int.tdiv_eq_ediv ht (le_of_lt hn)]
    calc m = n * m / n := (Int.mul_ediv_cancel_left m (ne_of_gt hn)).symm
    _ ≤ t / n := Int.ediv_le_ediv hn h
  · have hrw : Int.tdiv t n = -Int.tdiv (-t) n := by
      rw [Int.neg_tdiv, neg_neg]
    rw [hrw, Int.tdiv_eq_ediv (by omega) (le_of_lt hn)]
    have h2 : -t ≤ n * (-m) := by nlinarith
    have h3 : -t / n ≤ n * (-m) / n := Int.ediv_le_ediv hn h2
    rw [Int.mul_ediv_cancel_left (-m) (ne_of_gt hn)] at h3
    omega

theorem tdiv_le_of_le_mul (t n M : Int) (hn : 0 < n) (h : t ≤ n * M) :
    Int.tdiv t n ≤ M := by
  rcases le_or_lt 0 t with ht | ht
  · rw [Int.tdiv_eq_ediv ht (le_of_lt hn)]
    calc t / n ≤ n * M / n := Int.ediv_le_ediv hn h
    _ = M := Int.mul_ediv_cancel_left M (ne_of_gt hn)
  · have hrw : Int.tdiv t n = -Int.tdiv (-t) n := by
      rw [Int.neg_tdiv, neg_neg]
    rw [hrw, Int.tdiv_eq_ediv (by omega) (le_of_lt hn)]
    have h2 : n * (-M) ≤ -t := by nlinarith
    have h3 : n * (-M) / n ≤ -t / n := Int.ediv_le_ediv hn h2
    rw [Int.mul_ediv_cancel_left (-M) (ne_of_gt hn)] at h3
    omega

/-! ### Helper lemmas about the sorted copy -/

theorem sortDur_perm (l : List Int) : (sortDur l).Perm l :=
  List.perm_insertionSort (· ≤ ·) l

theorem sortDur_sorted (l : List Int) : (sortDur l).Sorted (· ≤ ·) :=
  List.sorted_insertionSort (· ≤ ·) l

theorem sortDur_length (l : List Int) : (sortDur l).length = l.length :=
  (sortDur_perm l).length_eq

theorem sortDur_eq_of_perm (l l₂ : List Int) (h : l.Perm l₂) :
    sortDur l = sortDur l₂ :=
  List.eq_of_perm_of_sorted
    ((sortDur_perm l).trans (h.trans (sortDur_perm l₂).symm))
    (sortDur_sorted l) (sortDur_sorted l₂)

theorem headD_mem (l : List Int) (h : l ≠ []) : l.headD 0 ∈ l := by
  cases l with
  | nil => exact absurd rfl h
  | cons a t => exact List.mem_cons_self a t

theorem sorted_getD_mono (s : List Int) (hs : s.Sorted (· ≤ ·))
    (i j : Nat) (hij : i ≤ j) (hj : j < s.length) :
    s.getD i 0 ≤ s.getD j 0 := by
  have hi : i < s.length := lt_of_le_of_lt hij hj
  rw [List.getD_eq_getElem s 0 hi, List.getD_eq_getElem s 0 hj]
  rcases lt_or_eq_of_le hij with h | h
  · exact List.pairwise_iff_getElem.mp hs i j hi hj h
  · subst h; exact le_refl _

theorem getD_mem (s : List Int) (i : Nat) (hi : i < s.length) :
    s.getD i 0 ∈ s := by
  rw [List.getD_eq_getElem s 0 hi]
  exact List.getElem_mem hi

/-! ### Helper lemmas about the percentile index -/

theorem percentileIndex_eq_floor (n : Nat) (p : ℚ) (hn : 1 ≤ n)
    (hp0 : 0 < p) (hp1 : p < 1) :
    percentileIndex n p = ⌊(n : ℚ) * p⌋ ∧
      0 ≤ ⌊(n : ℚ) * p⌋ ∧ ⌊(n : ℚ) * p⌋ < (n : Int) := by
  have hnq : (0 : ℚ) < (n : ℚ) := by exact_mod_cast hn
  have hq0 : (0 : ℚ) ≤ (n : ℚ) * p := le_of_lt (by positivity)
  have hflo : 0 ≤ ⌊(n : ℚ) * p⌋ := Int.le_floor.mpr (by exact_mod_cast hq0)
  have hlt : ⌊(n : ℚ) * p⌋ < (n : Int) := by
    rw [Int.floor_lt]
    push_cast
    exact mul_lt_of_lt_one_right hnq hp1
  have htr : truncQ ((n : ℚ) * p) = ⌊(n : ℚ) * p⌋ := by
    unfold truncQ
    rw [if_pos hq0]
  refine ⟨?_, hflo, hlt⟩
  unfold percentileIndex
  rw [htr, if_neg (by omega)]

theorem percentile_eq_getD_floor (l : List Int) (p : ℚ) (hne : l ≠ [])
    (hp0 : 0 < p) (hp1 : p < 1) :
    percentile l p = l.getD (⌊(l.length : ℚ) * p⌋).toNat 0 ∧
      (⌊(l.length : ℚ) * p⌋).toNat < l.length := by
  have hn : 1 ≤ l.length := List.length_pos.mpr hne
  obtain ⟨hidx, hge, hlt⟩ := percentileIndex_eq_floor l.length p hn hp0 hp1
  have hbound : (⌊(l.length : ℚ) * p⌋).toNat < l.length :=
    (Int.toNat_lt hge).mpr hlt
  refine ⟨?_, hbound⟩
  unfold percentile
  rw [if_neg (by omega), hidx]

theorem percentile_mem (l : List Int) (p : ℚ) (hne : l ≠ [])
    (hp0 : 0 < p) (hp1 : p < 1) : percentile l p ∈ l := by
  obtain ⟨heq, hlt⟩ := percentile_eq_getD_floor l p hne hp0 hp1
  rw [heq]
  exact getD_mem l _ hlt

theorem percentile_mono (l : List Int) (hs : l.Sorted (· ≤ ·))
    (p q : ℚ) (hne : l ≠ []) (hp0 : 0 < p) (hpq : p ≤ q) (hq1 : q < 1) :
    percentile l p ≤ percentile l q := by
  have hq0 : 0 < q := lt_of_lt_of_le hp0 hpq
  have hp1 : p < 1 := lt_of_le_of_lt hpq hq1
  obtain ⟨heqp, hltp⟩ := percentile_eq_getD_floor l p hne hp0 hp1
  obtain ⟨heqq, hltq⟩ := percentile_eq_getD_floor l q hne hq0 hq1
  rw [heqp, heqq]
  refine sorted_getD_mono l hs _ _ ?_ hltq
  have hfl : ⌊(l.length : ℚ) * p⌋ ≤ ⌊(l.length : ℚ) * q⌋ := by
    apply Int.floor_le_floor
    have : (0 : ℚ) ≤ (l.length : ℚ) := by positivity
    nlinarith
  omega

/-- Unfolding of `calculateLatencyStats` on a non-empty sample set. -/
theorem stats_eq_of_ne_nil (l : List Int) (flag : Bool) (h : l ≠ []) :
    calculateLatencyStats l flag =
      { Count := l.length,
        Min := (sortDur l).foldl updateMin (l.headD 0),
        Max := (sortDur l).foldl updateMax (l.headD 0),
        Mean := Int.tdiv ((sortDur l).foldl (· + ·) 0) (l.length : Int),
        P50 :=
          if flag = true ∧ 0 < (sortDur l).length then
            percentile (sortDur l) (1/2)
          else if 0 < (sortDur l).length then
            (sortDur l).getD ((sortDur l).length / 2) 0
          else 0,
        P95 :=
          if flag = true ∧ 0 < (sortDur l).length then
            percentile (sortDur l) (95/100)
          else 0,
        P99 :=
          if flag = true ∧ 0 < (sortDur l).length then
            percentile (sortDur l) (99/100)
          else 0,
        P999 :=
          if flag = true ∧ 0 < (sortDur l).length then
            percentile (sortDur l) (999/1000)
          else 0,
        Total := (sortDur l).foldl (· + ·) 0,
        Durations := if flag = true then sortDur l else [] } := by
  unfold calculateLatencyStats
  rw [if_neg (fun hc => h (List.length_eq_zero.mp hc))]

/-- The element of a one-element list at every percentile in (0,1). -/
theorem percentile_singleton (x : Int) (p : ℚ) (hp0 : 0 < p) (hp1 : p < 1) :
    percentile [x] p = x := by
  obtain ⟨heq, hlt⟩ :=
    percentile_eq_getD_floor [x] p (by simp) hp0 hp1
  rw [heq]
  have h0 : (⌊(([x] : List Int).length : ℚ) * p⌋).toNat = 0 := by
    simp only [List.length_singleton] at hlt ⊢
    omega
  rw [h0]
  rfl

/-- C3: on the empty sample set, for either flag value,
`calculateLatencyStats` returns the zero-valued report (count 0, every
duration field 0, empty retained list) and raises no error. -/
theorem emptySampleSet_zero_report (flag : Bool) :
    calculateLatencyStats [] flag =
      { Count := 0, Min := 0, Max := 0, Mean := 0, P50 := 0, P95 := 0,
        P99 := 0, P999 := 0, Total := 0, Durations := [] } := rfl

/-- C1: on a non-empty ascending-sorted sample set and a fraction
`p ∈ (0,1)`, `percentile` returns the element at index `⌊n·p⌋`, which is
within `n - 1`, so the clamp to `n - 1` used for `index ≥ n` never engages:
the nearest-rank-with-truncation method, not linear interpolation. -/
theorem percentile_nearest_rank (l : List Int) (p : ℚ)
    (_hs : l.Sorted (· ≤ ·)) (hne : l ≠ []) (hp0 : 0 < p) (hp1 : p < 1) :
    percentile l p = l.getD (⌊(l.length : ℚ) * p⌋).toNat 0 ∧
      (⌊(l.length : ℚ) * p⌋).toNat ≤ l.length - 1 := by
  obtain ⟨heq, hlt⟩ := percentile_eq_getD_floor l p hne hp0 hp1
  exact ⟨heq, by omega⟩

/-- Witness for C1 at the sorted set `[10, 20, 30]` and `p = 1/2`. -/
theorem percentile_nearest_rank_witness :
    ([10, 20, 30] : List Int).Sorted (· ≤ ·) ∧
      (0 : ℚ) < 1/2 ∧ (1/2 : ℚ) < 1 ∧
      (percentile [10, 20, 30] (1/2) =
          ([10, 20, 30] : List Int).getD
            (⌊(([10, 20, 30] : List Int).length : ℚ) * (1/2)⌋).toNat 0 ∧
        (⌊(([10, 20, 30] : List Int).length : ℚ) * (1/2)⌋).toNat ≤
          ([10, 20, 30] : List Int).length - 1) :=
  ⟨by decide, by norm_num, by norm_num,
    percentile_nearest_rank [10, 20, 30] (1/2) (by decide) (by decide)
      (by norm_num) (by norm_num)⟩

/-- C10: the percentile helper is total and in-bounds at its public boundary:
it returns 0 on the empty slice for every fraction, and on a non-empty slice
with `p ∈ (0,1)` the computed clamped index is non-negative and within the
slice bounds, so the element access never fails. -/
theorem percentile_total_safe (l : List Int) (p : ℚ) (hne : l ≠ [])
    (hp0 : 0 < p) (hp1 : p < 1) :
    percentile [] p = 0 ∧
      0 ≤ percentileIndex l.length p ∧
      (percentileIndex l.length p).toNat < l.length := by
  have hn : 1 ≤ l.length := List.length_pos.mpr hne
  obtain ⟨heq, hge, hlt⟩ := percentileIndex_eq_floor l.length p hn hp0 hp1
  refine ⟨rfl, by omega, ?_⟩
  rw [heq]
  exact (Int.toNat_lt hge).mpr hlt

/-- Witness for C10 at the slice `[5, 9]` and `p = 999/1000`. -/
theorem percentile_total_safe_witness :
    ([5, 9] : List Int) ≠ [] ∧ (0 : ℚ) < 999/1000 ∧ (999/1000 : ℚ) < 1 ∧
      (percentile [] (999/1000) = 0 ∧
        0 ≤ percentileIndex ([5, 9] : List Int).length (999/1000) ∧
        (percentileIndex ([5, 9] : List Int).length (999/1000)).toNat <
          ([5, 9] : List Int).length) :=
  ⟨by decide, by norm_num, by norm_num,
    percentile_total_safe [5, 9] (999/1000) (by decide) (by norm_num)
      (by norm_num)⟩

/-- C6: for a one-element sample set `[x]`, every statistic of the report —
min, max, mean, p50, p95, p99 and p999 — equals `x`. -/
theorem singleton_all_stats_eq (x : Int) :
    (calculateLatencyStats [x] true).Min = x ∧
      (calculateLatencyStats [x] true).Max = x ∧
      (calculateLatencyStats [x] true).Mean = x ∧
      (calculateLatencyStats [x] true).P50 = x ∧
      (calculateLatencyStats [x] true).P95 = x ∧
      (calculateLatencyStats [x] true).P99 = x ∧
      (calculateLatencyStats [x] true).P999 = x := by
  rw [stats_eq_of_ne_nil [x] true (by simp)]
  have hsort : sortDur [x] = [x] := rfl
  simp only [hsort, List.length_singleton, List.headD, List.foldl_cons,
    List.foldl_nil]
  refine ⟨?_, ?_, ?_, ?_, ?_, ?_, ?_⟩
  · simp [updateMin]
  · simp [updateMax]
  · rw [zero_add, Nat.cast_one, Int.tdiv_one]
  · rw [if_pos (by norm_num)]
    exact percentile_singleton x (1/2) (by norm_num) (by norm_num)
  · rw [if_pos (by norm_num)]
    exact percentile_singleton x (95/100) (by norm_num) (by norm_num)
  · rw [if_pos (by norm_num)]
    exact percentile_singleton x (99/100) (by norm_num) (by norm_num)
  · rw [if_pos (by norm_num)]
    exact percentile_singleton x (999/1000) (by norm_num) (by norm_num)

/-- `⌊n · (1/2)⌋` agrees with integer division `n / 2`. -/
theorem floor_half_eq (n : Nat) : ⌊(n : ℚ) * (1/2)⌋ = ((n / 2 : Nat) : Int) := by
  refine Int.floor_eq_iff.mpr ⟨?_, ?_⟩
  · have h1 : (n / 2) * 2 ≤ n := Nat.div_mul_le_self n 2
    rw [mul_one_div, le_div_iff₀ (by norm_num : (0:ℚ) < 2)]
    push_cast
    exact_mod_cast h1
  · have hm : n % 2 < 2 := Nat.mod_lt n (by norm_num)
    have hd := Nat.div_add_mod n 2
    have h2 : n < (n / 2 + 1) * 2 := by omega
    rw [mul_one_div, div_lt_iff₀ (by norm_num : (0:ℚ) < 2)]
    push_cast
    exact_mod_cast h2

/-- C8: the percentiles-disabled fallback and the general percentile formula
coincide.  For every `n ≥ 1` the clamped index computed by `percentile` for
`p = 1/2` is exactly the integer-division index `n / 2` used by the fallback,
and consequently the fallback p50 equals `percentile(sorted, 0.50)` on every
non-empty sample set. -/
theorem fallback_p50_eq_percentile (n : Nat) (l : List Int)
    (hn : 1 ≤ n) (hne : l ≠ []) :
    percentileIndex n (1/2) = ((n / 2 : Nat) : Int) ∧
      (calculateLatencyStats l false).P50 = percentile (sortDur l) (1/2) := by
  constructor
  · obtain ⟨heq, -, -⟩ :=
      percentileIndex_eq_floor n (1/2) hn (by norm_num) (by norm_num)
    rw [heq, floor_half_eq]
  · have hslen : 0 < (sortDur l).length := by
      rw [sortDur_length]
      exact List.length_pos.mpr hne
    have hsne : sortDur l ≠ [] := by
      intro hc
      rw [hc] at hslen
      exact absurd hslen (by simp)
    rw [stats_eq_of_ne_nil l false hne]
    obtain ⟨heq, hlt⟩ :=
      percentile_eq_getD_floor (sortDur l) (1/2) hsne (by norm_num)
        (by norm_num)
    simp only [false_and, if_false, if_pos hslen, heq, floor_half_eq,
      Int.toNat_natCast, ite_self]

/-- Witness for C8 at `n = 5` and the sample set `[4, 4, 1]`. -/
theorem fallback_p50_eq_percentile_witness :
    1 ≤ 5 ∧ ([4, 4, 1] : List Int) ≠ [] ∧
      (percentileIndex 5 (1/2) = ((5 / 2 : Nat) : Int) ∧
        (calculateLatencyStats [4, 4, 1] false).P50 =
          percentile (sortDur [4, 4, 1]) (1/2)) :=
  ⟨by decide, by decide,
    fallback_p50_eq_percentile 5 [4, 4, 1] (by decide) (by decide)⟩

/-- `wrap64` is the identity on values already inside the int64 range. -/
theorem wrap64_eq_self (x : Int) (h1 : -(2^63) ≤ x) (h2 : x < 2^63) :
    wrap64 x = x := by
  unfold wrap64
  have h3 : (0 : Int) ≤ x + 2^63 := by linarith
  have h4 : x + 2^63 < 2^64 := by
    have hp : (2 : Int)^64 = 2^63 + 2^63 := by norm_num
    linarith
  rw [Int.emod_eq_of_lt h3 h4]
  ring

/-- While the absolute values of the accumulator and of the remaining
samples sum below `2^63`, no wrap occurs: the wrapping accumulation computes
the exact sum. -/
theorem foldl_addWrap64_eq_sum (s : List Int) (a : Int)
    (h : |a| + (s.map fun x => |x|).sum < 2^63) :
    s.foldl addWrap64 a = a + s.sum := by
  induction s generalizing a with
  | nil => simp
  | cons b s ih =>
    have habs : (0 : Int) ≤ (s.map fun x => |x|).sum :=
      List.sum_nonneg (by
        intro x hx
        obtain ⟨y, -, rfl⟩ := List.mem_map.mp hx
        exact abs_nonneg y)
    rw [List.map_cons, List.sum_cons] at h
    have hab : |a + b| ≤ |a| + |b| := abs_add a b
    have hb1 : -(2^63) ≤ a + b := by
      have hneg := neg_abs_le (a + b)
      linarith
    have hb2 : a + b < 2^63 := by
      have hpos := le_abs_self (a + b)
      linarith
    rw [List.foldl_cons,
      show addWrap64 a b = a + b from wrap64_eq_self (a + b) hb1 hb2,
      ih (a + b) (by linarith), List.sum_cons]
    ring

/-- The sum of absolute values is invariant under sorting. -/
theorem map_abs_sum_sortDur (l : List Int) :
    ((sortDur l).map fun x => |x|).sum = (l.map fun x => |x|).sum :=
  ((sortDur_perm l).map fun x => |x|).sum_eq

/-- Unfolding of `calculateLatencyStats64` on a non-empty sample set. -/
theorem stats64_eq_of_ne_nil (l : List Int) (flag : Bool) (h : l ≠ []) :
    calculateLatencyStats64 l flag =
      { Count := l.length,
        Min := (sortDur l).foldl updateMin (l.headD 0),
        Max := (sortDur l).foldl updateMax (l.headD 0),
        Mean := Int.tdiv ((sortDur l).foldl addWrap64 0) (l.length : Int),
        P50 :=
          if flag = true ∧ 0 < (sortDur l).length then
            percentile (sortDur l) (1/2)
          else if 0 < (sortDur l).length then
            (sortDur l).getD ((sortDur l).length / 2) 0
          else 0,
        P95 :=
          if flag = true ∧ 0 < (sortDur l).length then
            percentile (sortDur l) (95/100)
          else 0,
        P99 :=
          if flag = true ∧ 0 < (sortDur l).length then
            percentile (sortDur l) (99/100)
          else 0,
        P999 :=
          if flag = true ∧ 0 < (sortDur l).length then
            percentile (sortDur l) (999/1000)
          else 0,
        Total := (sortDur l).foldl addWrap64 0,
        Durations := if flag = true then sortDur l else [] } := by
  unfold calculateLatencyStats64
  rw [if_neg (fun hc => h (List.length_eq_zero.mp hc))]

set_option maxRecDepth 4000 in
/-- C2 counterexample: four samples of `2^62 = 4611686018427387904`
nanoseconds — each a legal int64 duration — overflow the int64 running
total, which wraps to 0; the program therefore reports mean 0, strictly
below the minimum `2^62`, refuting the claimed `min ≤ mean` on the code's
own arithmetic. -/
theorem stats_overflow_counterexample :
    (calculateLatencyStats64
        [4611686018427387904, 4611686018427387904, 4611686018427387904,
          4611686018427387904] true).Mean <
      (calculateLatencyStats64
        [4611686018427387904, 4611686018427387904, 4611686018427387904,
          4611686018427387904] true).Min := by
  decide

/-- C2 amended: on every non-empty sample set whose absolute durations sum
below `2^63` — so the int64 accumulation of the total cannot overflow — the
report satisfies `min ≤ mean ≤ max`, and with percentiles enabled it also
satisfies `min ≤ p50 ≤ p95 ≤ p99 ≤ p999 ≤ max` (the percentile chain
involves no duration arithmetic, only sorting and indexing). -/
theorem stats_min_mean_max_percentile_chain_int64 (l : List Int)
    (flag : Bool) (hne : l ≠ [])
    (hbound : (l.map fun x => |x|).sum < 2^63) :
    ((calculateLatencyStats64 l flag).Min ≤
        (calculateLatencyStats64 l flag).Mean ∧
      (calculateLatencyStats64 l flag).Mean ≤
        (calculateLatencyStats64 l flag).Max) ∧
    ((calculateLatencyStats64 l true).Min ≤
        (calculateLatencyStats64 l true).P50 ∧
      (calculateLatencyStats64 l true).P50 ≤
        (calculateLatencyStats64 l true).P95 ∧
      (calculateLatencyStats64 l true).P95 ≤
        (calculateLatencyStats64 l true).P99 ∧
      (calculateLatencyStats64 l true).P99 ≤
        (calculateLatencyStats64 l true).P999 ∧
      (calculateLatencyStats64 l true).P999 ≤
        (calculateLatencyStats64 l true).Max) := by
  have hn : 0 < l.length := List.length_pos.mpr hne
  have hslen : 0 < (sortDur l).length := by rw [sortDur_length]; exact hn
  have hsne : sortDur l ≠ [] := by
    intro hc; rw [hc] at hslen; exact absurd hslen (by simp)
  have hsorted : (sortDur l).Sorted (· ≤ ·) := sortDur_sorted l
  have h0mem : l.headD 0 ∈ sortDur l :=
    ((sortDur_perm l).mem_iff).mpr (headD_mem l hne)
  have hmin_le : ∀ x ∈ sortDur l,
      (sortDur l).foldl updateMin (l.headD 0) ≤ x :=
    foldl_updateMin_le_mem (sortDur l) (l.headD 0)
  have hmax_ge : ∀ x ∈ sortDur l,
      x ≤ (sortDur l).foldl updateMax (l.headD 0) :=
    foldl_updateMax_mem_le (sortDur l) (l.headD 0)
  have htot : (sortDur l).foldl addWrap64 0 = (sortDur l).sum := by
    rw [foldl_addWrap64_eq_sum (sortDur l) 0
        (by rw [abs_zero, zero_add, map_abs_sum_sortDur]; exact hbound),
      zero_add]
  have hnz : (0 : Int) < (l.length : Int) := by exact_mod_cast hn
  have hmean_lb :
      (sortDur l).foldl updateMin (l.headD 0) ≤
        Int.tdiv ((sortDur l).foldl addWrap64 0) (l.length : Int) := by
    apply le_tdiv_of_mul_le _ _ _ hnz
    rw [htot]
    have hbd := length_mul_le_sum (sortDur l) _ hmin_le
    rw [sortDur_length] at hbd
    exact hbd
  have hmean_ub :
      Int.tdiv ((sortDur l).foldl addWrap64 0) (l.length : Int) ≤
        (sortDur l).foldl updateMax (l.headD 0) := by
    apply tdiv_le_of_le_mul _ _ _ hnz
    rw [htot]
    have hbd := sum_le_length_mul (sortDur l) _ hmax_ge
    rw [sortDur_length] at hbd
    exact hbd
  constructor
  · rw [stats64_eq_of_ne_nil l flag hne]
    exact ⟨hmean_lb, hmean_ub⟩
  · rw [stats64_eq_of_ne_nil l true hne]
    simp only [eq_self_iff_true, true_and, if_pos hslen]
    refine ⟨?_, ?_, ?_, ?_, ?_⟩
    · exact hmin_le _ (percentile_mem (sortDur l) (1/2) hsne (by norm_num)
        (by norm_num))
    · exact percentile_mono (sortDur l) hsorted (1/2) (95/100) hsne
        (by norm_num) (by norm_num) (by norm_num)
    · exact percentile_mono (sortDur l) hsorted (95/100) (99/100) hsne
        (by norm_num) (by norm_num) (by norm_num)
    · exact percentile_mono (sortDur l) hsorted (99/100) (999/1000) hsne
        (by norm_num) (by norm_num) (by norm_num)
    · exact hmax_ge _ (percentile_mem (sortDur l) (999/1000) hsne
        (by norm_num) (by norm_num))

/-- Witness for the amended C2 at the sample set `[3, 1, 2]` (absolute sum 6,
far below `2^63`) with percentiles enabled. -/
theorem stats_min_mean_max_percentile_chain_int64_witness :
    ([3, 1, 2] : List Int) ≠ [] ∧
      (([3, 1, 2] : List Int).map fun x => |x|).sum < 2^63 ∧
      (((calculateLatencyStats64 [3, 1, 2] true).Min ≤
          (calculateLatencyStats64 [3, 1, 2] true).Mean ∧
        (calculateLatencyStats64 [3, 1, 2] true).Mean ≤
          (calculateLatencyStats64 [3, 1, 2] true).Max) ∧
      ((calculateLatencyStats64 [3, 1, 2] true).Min ≤
          (calculateLatencyStats64 [3, 1, 2] true).P50 ∧
        (calculateLatencyStats64 [3, 1, 2] true).P50 ≤
          (calculateLatencyStats64 [3, 1, 2] true).P95 ∧
        (calculateLatencyStats64 [3, 1, 2] true).P95 ≤
          (calculateLatencyStats64 [3, 1, 2] true).P99 ∧
        (calculateLatencyStats64 [3, 1, 2] true).P99 ≤
          (calculateLatencyStats64 [3, 1, 2] true).P999 ∧
        (calculateLatencyStats64 [3, 1, 2] true).P999 ≤
          (calculateLatencyStats64 [3, 1, 2] true).Max)) :=
  ⟨by decide, by decide,
    stats_min_mean_max_percentile_chain_int64 [3, 1, 2] true (by decide)
      (by decide)⟩

/-- C7: `calculateLatencyStats` is order-independent — permuting the input
sample set (with the same flag) yields a report identical in every field. -/
theorem stats_order_independent (l l₂ : List Int) (flag : Bool)
    (hp : l.Perm l₂) :
    calculateLatencyStats l flag = calculateLatencyStats l₂ flag := by
  by_cases h : l = []
  · subst h
    have h2 : l₂ = [] := hp.symm.eq_nil
    subst h2
    rfl
  · have h2 : l₂ ≠ [] := by
      intro hc
      subst hc
      exact h hp.eq_nil
    rw [stats_eq_of_ne_nil l flag h, stats_eq_of_ne_nil l₂ flag h2]
    have hsort : sortDur l₂ = sortDur l := (sortDur_eq_of_perm l l₂ hp).symm
    have hlen : l₂.length = l.length := hp.length_eq.symm
    have hmem1 : l.headD 0 ∈ sortDur l :=
      ((sortDur_perm l).mem_iff).mpr (headD_mem l h)
    have hmem2 : l₂.headD 0 ∈ sortDur l := by
      rw [← hsort]
      exact ((sortDur_perm l₂).mem_iff).mpr (headD_mem l₂ h2)
    rw [hsort, hlen,
      foldl_updateMin_init_irrel (sortDur l) (l₂.headD 0) (l.headD 0) hmem2
        hmem1,
      foldl_updateMax_init_irrel (sortDur l) (l₂.headD 0) (l.headD 0) hmem2
        hmem1]

/-- Witness for C7 at the permuted pair `[1, 2, 3]` and `[3, 1, 2]`. -/
theorem stats_order_independent_witness :
    ([1, 2, 3] : List Int).Perm [3, 1, 2] ∧
      calculateLatencyStats [1, 2, 3] true =
        calculateLatencyStats [3, 1, 2] true :=
  ⟨by decide, stats_order_independent [1, 2, 3] [3, 1, 2] true (by decide)⟩

/-- A slice address holding a non-empty slice is in range. -/
theorem readSlice_ne_nil_lt (m : List (List Int)) (a : Nat)
    (h : readSlice m a ≠ []) : a < m.length := by
  by_contra hc
  exact h (List.getD_eq_default m [] (le_of_not_lt hc))

/-- Writing one slice leaves every other address unchanged. -/
theorem getD_set_addr_ne (ml : List (List Int)) (i j : Nat) (v : List Int)
    (h : i ≠ j) : (ml.set i v).getD j [] = ml.getD j [] := by
  rw [List.getD_eq_getElem?_getD, List.getElem?_set_ne h,
    ← List.getD_eq_getElem?_getD]

/-- Reading back an in-range write returns the written slice. -/
theorem getD_set_addr_self (ml : List (List Int)) (i : Nat) (v : List Int)
    (h : i < ml.length) : (ml.set i v).getD i [] = v := by
  rw [List.getD_eq_getElem?_getD, List.getElem?_set_self h]
  rfl

/-- C9: `calculateLatencyStats` never mutates its input slice.  On the heap
model: after the call the caller's slice holds the same elements in the same
order; the sorted copy lives at the freshly allocated address `m.length`
(distinct from the caller's address `a` whenever the input is non-empty);
and the retained `Durations` reference, populated exactly when percentiles
are enabled on a non-empty input, points to that fresh sorted copy, not to
the caller's slice. -/
theorem stats_no_mutation_frame (m : List (List Int)) (a : Nat)
    (flag : Bool) :
    readSlice ((calculateLatencyStatsHeap m a flag).2) a = readSlice m a ∧
      readSlice ((calculateLatencyStatsHeap m a flag).2) m.length =
        sortDur (readSlice m a) ∧
      (calculateLatencyStatsHeap m a flag).1.durationsAddr =
        (if flag = true ∧ readSlice m a ≠ [] then some m.length else none) ∧
      (readSlice m a = [] ∨ a < m.length) := by
  by_cases hd : readSlice m a = []
  · have hlen0 : (readSlice m a).length = 0 := by rw [hd]; rfl
    unfold calculateLatencyStatsHeap
    rw [if_pos hlen0]
    refine ⟨rfl, ?_, ?_, Or.inl hd⟩
    · rw [hd]
      exact List.getD_eq_default m [] (le_refl m.length)
    · rw [if_neg (fun hc => hc.2 hd)]
  · have ha : a < m.length := readSlice_ne_nil_lt m a hd
    have hane : m.length ≠ a := (Nat.ne_of_lt ha).symm
    have hlen0 : ¬ (readSlice m a).length = 0 :=
      fun hc => hd (List.length_eq_zero.mp hc)
    unfold calculateLatencyStatsHeap
    rw [if_neg hlen0]
    simp only [readSlice, writeSlice] at hd ⊢
    have happ : (m ++ [List.replicate (m.getD a []).length 0]).getD a [] =
        m.getD a [] :=
      List.getD_append m _ [] a ha
    have happlen : (m ++ [List.replicate (m.getD a []).length 0]).length =
        m.length + 1 := by simp
    refine ⟨?_, ?_, ?_, Or.inr ha⟩
    · rw [getD_set_addr_ne _ _ _ _ hane, getD_set_addr_ne _ _ _ _ hane, happ]
    · rw [getD_set_addr_self _ _ _ (by rw [List.length_set, happlen]; omega),
        getD_set_addr_self _ _ _ (by rw [happlen]; omega), happ]
    · cases flag <;> simp [← List.getD_eq_getElem?_getD, hd]

/-- Characterisation of the sequential guarded accumulation: folding
`aggregateStep` over a list of mean pairs adds the ratios and counts of
exactly the pairs whose two means are strictly positive. -/
theorem foldl_aggregateStep_eq (ps : List (Int × Int)) (a : ℚ) (k : Nat) :
    ps.foldl (fun acc c => aggregateStep acc c.1 c.2) (a, k) =
      (a + ((ps.filter fun c => decide (0 < c.1) && decide (0 < c.2)).map
          fun c => (c.1 : ℚ) / (c.2 : ℚ)).sum,
        k + (ps.filter fun c => decide (0 < c.1) && decide (0 < c.2)).length) := by
  induction ps generalizing a k with
  | nil => simp
  | cons c ps ih =>
    rw [List.foldl_cons]
    by_cases h : 0 < c.1 ∧ 0 < c.2
    · rw [show aggregateStep (a, k) c.1 c.2 =
          (a + (c.1 : ℚ) / (c.2 : ℚ), k + 1) from if_pos h, ih,
        List.filter_cons_of_pos (by simp [h.1, h.2])]
      simp only [List.map_cons, List.sum_cons, List.length_cons,
        Prod.mk.injEq]
      exact ⟨by ring, by omega⟩
    · rw [show aggregateStep (a, k) c.1 c.2 = (a, k) from if_neg h, ih,
        List.filter_cons_of_neg (by simpa using fun h1 h2 => h ⟨h1, h2⟩)]

/-- C4 counterexample: with a positive baseline (without-index) mean of 100
and a variant (with-index) mean of 0, the per-category report still computes
and prints a speedup ratio — the category is not skipped, and the zero
variant mean is used as divisor — contradicting the claim that a zero mean
on either side yields an "insufficient data" skip. -/
theorem perCategory_zero_variant_not_skipped :
    (perCategorySpeedup 100 0).isSome = true := by
  unfold perCategorySpeedup
  rw [if_pos (by norm_num)]
  rfl

/-- C4 amended: a category whose baseline or variant mean is zero is excluded
from the aggregate accumulation (so the aggregate never divides by a zero
mean), but the per-category output skips its speedup line only when the
baseline mean is non-positive: the variant mean is never checked, and a zero
variant mean is divided by whenever the baseline mean is positive.  No
"insufficient data" report exists. -/
theorem perCategory_guard_and_aggregate_exclusion
    (withoutMean withMean : Int) (acc : ℚ × Nat)
    (h : withoutMean = 0 ∨ withMean = 0) :
    aggregateStep acc withoutMean withMean = acc ∧
      (perCategorySpeedup withoutMean withMean = none ↔ withoutMean ≤ 0) := by
  constructor
  · unfold aggregateStep
    rw [if_neg]
    rintro ⟨h1, h2⟩
    rcases h with h | h <;> omega
  · unfold perCategorySpeedup
    by_cases hw : 0 < withoutMean
    · rw [if_pos hw]
      simp only [reduceCtorEq, false_iff]
      omega
    · rw [if_neg hw]
      simp only [true_iff]
      omega

/-- Witness for the amended C4 at baseline mean 100, variant mean 0. -/
theorem perCategory_guard_and_aggregate_exclusion_witness :
    ((100 : Int) = 0 ∨ (0 : Int) = 0) ∧
      (aggregateStep ((0 : ℚ), (0 : Nat)) 100 0 = ((0 : ℚ), (0 : Nat)) ∧
        (perCategorySpeedup 100 0 = none ↔ (100 : Int) ≤ 0)) :=
  ⟨Or.inr rfl,
    perCategory_guard_and_aggregate_exclusion 100 0 ((0 : ℚ), (0 : Nat))
      (Or.inr rfl)⟩

/-- A benchmark result whose hash-category mean is the non-zero but negative
value -1 (all other fields zero); negative means can arise from negative
recorded durations, which the design accepts. -/
def negHashMeanResult : BenchmarkResult :=
  { BenchmarkResult.zero with
      HashStats := { LatencyStats.zero with Mean := -1 } }

/-- A benchmark result whose hash-category mean is 1 (all other fields
zero). -/
def oneHashMeanResult : BenchmarkResult :=
  { BenchmarkResult.zero with
      HashStats := { LatencyStats.zero with Mean := 1 } }

/-- C5 counterexample: for the pair (baseline hash mean -1, variant hash
mean 1) — both non-zero — the spec's rule ("average over categories where
both means are non-zero") yields an aggregate of -1, but the code's summary
produces no aggregate at all: its guards require strictly positive means,
not non-zero ones. -/
theorem aggregate_nonzero_rule_counterexample :
    comparisonSummary negHashMeanResult oneHashMeanResult = none ∧
      comparisonSummarySpec negHashMeanResult oneHashMeanResult =
        some (-1) := by
  constructor
  · unfold comparisonSummary categoryMeanPairs negHashMeanResult
      oneHashMeanResult BenchmarkResult.zero LatencyStats.zero aggregateStep
    norm_num
  · unfold comparisonSummarySpec categoryMeanPairs negHashMeanResult
      oneHashMeanResult BenchmarkResult.zero LatencyStats.zero
    norm_num

/-- C5 amended: the aggregate speedup is the arithmetic mean of the
per-category ratios `withoutIndexes.Mean / withIndexes.Mean` over exactly
those categories where both means are STRICTLY POSITIVE (not merely
non-zero), and the classification of the aggregate is: significant
improvement iff it exceeds 3/2, modest improvement iff it exceeds 11/10 but
is at most 3/2, and no meaningful improvement iff it is at most 11/10 —
including aggregates below 1, which are reported as computed, not
clamped. -/
theorem aggregate_speedup_positive_mean_rule
    (withoutIdx withIdx : BenchmarkResult) :
    comparisonSummary withoutIdx withIdx =
        comparisonSummaryPos withoutIdx withIdx ∧
      ∀ s : ℚ,
        (classifySpeedup s = SpeedupClass.significant ↔ 3/2 < s) ∧
          (classifySpeedup s = SpeedupClass.modest ↔
            11/10 < s ∧ s ≤ 3/2) ∧
          (classifySpeedup s = SpeedupClass.minimal ↔ s ≤ 11/10) := by
  constructor
  · unfold comparisonSummary comparisonSummaryPos
    rw [foldl_aggregateStep_eq]
    simp only [zero_add, List.length_map]
    by_cases h : ((categoryMeanPairs withoutIdx withIdx).filter
        fun c => decide (0 < c.1) && decide (0 < c.2)).length = 0
    · rw [if_neg (by omega), if_pos h]
    · rw [if_pos (by omega), if_neg h]
  · intro s
    unfold classifySpeedup
    by_cases h1 : 3/2 < s
    · have h2 : 11/10 < s := by linarith
      rw [if_pos h1]
      refine ⟨by simp [h1], ?_, ?_⟩
      · simp only [reduceCtorEq, false_iff]
        intro hc
        linarith [hc.2]
      · simp only [reduceCtorEq, false_iff]
        intro hc
        linarith
    · rw [if_neg h1]
      by_cases h2 : 11/10 < s
      · rw [if_pos h2]
        refine ⟨by simp [h1], ?_, ?_⟩
        · simp only [true_iff]
          exact ⟨h2, by linarith [not_lt.mp h1]⟩
        · simp only [reduceCtorEq, false_iff]
          intro hc
          linarith
      · rw [if_neg h2]
        refine ⟨by simp [h1], ?_, ?_⟩
        · simp only [reduceCtorEq, false_iff]
          intro hc
          exact h2 hc.1
        · simp only [true_iff]
          linarith [not_lt.mp h2]
